import Mathlib

/-
Verification of the patient-doctor registry (src/main.go).

The Go program keeps an in-memory `Store` with:
  patients   : map[int]Patient
  doctors    : map[int]Doctor
  selections : map[int]int                        (patient id -> doctor id)
  subs       : map[int]map[chan struct{}]struct{} (doctor id -> subscriber set)
protected by one RWMutex.  `SelectDoctor` validates both ids, overwrites the
selection, spawns an asynchronous persistence write and sends a non-blocking
signal to every subscriber of the chosen doctor.  `Subscribe` registers a
buffered channel of capacity one; the returned cancel closure deletes it from
the subscriber set and closes it.  `persistSelections` snapshots the relation
to disk; `loadSelections` merges a snapshot back into the map at startup.

The shallow embedding below models Go maps as association lists with
overwrite-on-insert (`insertA`), and each subscriber channel as a `Chan`
record: `pending` says whether the one-slot buffer holds an undelivered
signal, `closed` whether the channel was closed.  Operations that can panic
in Go (sending on, or closing, a closed channel) return `none`.
-/

namespace PatientDoctor

/-- Mirrors Go struct `Patient` (src/main.go lines 19-24). -/
structure Patient where
  id : Int
  login : String
  password : String
  name : String
deriving DecidableEq, Repr

/-- Mirrors Go struct `Doctor` (src/main.go lines 26-34). -/
structure Doctor where
  id : Int
  login : String
  password : String
  first : String
  last : String
  middle : String
  special : String
deriving DecidableEq, Repr

/-- Mirrors Go struct `Selection`, the persisted snapshot entry
(src/main.go lines 41-44). -/
structure Selection where
  patientID : Int
  doctorID : Int
deriving DecidableEq, Repr

/-- State of one subscriber channel `make(chan struct{}, 1)`:
`pending` = the one-slot buffer holds an undelivered signal,
`closed` = the channel has been closed. -/
structure Chan where
  pending : Bool
  closed : Bool
deriving DecidableEq, Repr

/-- Result of a Go function returning `error`. -/
inductive GoResult where
  | ok
  | err (msg : String)
deriving DecidableEq, Repr

/-- Association-list model of a Go map. -/
abbrev AMap (α β : Type) := List (α × β)

/-- Go map read `m[k]` (with ok-flag): first entry with the key. -/
def lookupA {α β : Type} [DecidableEq α] : AMap α β → α → Option β
  | [], _ => none
  | (k', v) :: rest, k => if k' = k then some v else lookupA rest k

/-- Go map write `m[k] = v`: overwrite the entry for `k` if present,
otherwise append it. -/
def insertA {α β : Type} [DecidableEq α] : AMap α β → α → β → AMap α β
  | [], k, v => [(k, v)]
  | (k', v') :: rest, k, v =>
      if k' = k then (k, v) :: rest else (k', v') :: insertA rest k v

/-- The in-memory `Store` (src/main.go lines 53-66).  Channels are named by
`Nat` handles; `chans` records each channel's state and `nextCh` is the next
fresh handle. -/
structure Store where
  patients : AMap Int Patient
  doctors : AMap Int Doctor
  selections : AMap Int Int
  subs : AMap Int (List Nat)
  chans : AMap Nat Chan
  nextCh : Nat
deriving DecidableEq, Repr

/-- The subscriber set `s.subs[doctorID]` (empty when absent, as a nil Go
map ranges over nothing). -/
def subsOf (s : Store) (doctorID : Int) : List Nat :=
  (lookupA s.subs doctorID).getD []

/-- Non-blocking send `select { case ch <- struct{}{}: default: }` on a
capacity-one channel (src/main.go lines 195-198).  Sending on a closed
channel panics (`none`); a full buffer takes the default branch (signal
coalesced); otherwise the signal is buffered. -/
def trySend (c : Chan) : Option Chan :=
  if c.closed then none
  else if c.pending then some c
  else some { c with pending := true }

/-- The publish loop of `SelectDoctor` (src/main.go lines 194-199): a
non-blocking send to each channel in the subscriber set. -/
def publishAll (chans : AMap Nat Chan) : List Nat → Option (AMap Nat Chan)
  | [] => some chans
  | chId :: rest =>
      match lookupA chans chId with
      | none => none
      | some c =>
          match trySend c with
          | none => none
          | some c' => publishAll (insertA chans chId c') rest

/-- `Store.SelectDoctor` (src/main.go lines 183-201).  Validates both ids,
overwrites the selection, and publishes to the chosen doctor's subscribers.
The detached `go s.persistSelections()` does not change in-memory state.
`none` models a panic inside the publish loop. -/
def SelectDoctor (s : Store) (patientID doctorID : Int) :
    Option (Store × GoResult) :=
  if (lookupA s.patients patientID).isNone then
    some (s, GoResult.err "patient not found")
  else if (lookupA s.doctors doctorID).isNone then
    some (s, GoResult.err "doctor not found")
  else
    match publishAll s.chans (subsOf s doctorID) with
    | none => none
    | some cs =>
        some ({ s with selections := insertA s.selections patientID doctorID,
                       chans := cs }, GoResult.ok)

/-- The spec's `doctorFor(patientId)`: read of `s.selections[patientID]`
(as in the `/api/patient/me` handler, src/main.go line 286). -/
def doctorFor (s : Store) (patientID : Int) : Option Int :=
  lookupA s.selections patientID

/-- `Store.PatientsOfDoctor` (src/main.go lines 203-215): scan the relation
for entries pointing at `doctorID`, keeping only patients present in the
directory. -/
def PatientsOfDoctor (s : Store) (doctorID : Int) : List Patient :=
  s.selections.filterMap fun pd =>
    if pd.2 = doctorID then lookupA s.patients pd.1 else none

/-- `Store.Subscribe` (src/main.go lines 217-224): create a fresh
capacity-one channel and add it to the doctor's subscriber set (creating the
set if absent).  Returns the new store and the channel handle. -/
def Subscribe (s : Store) (doctorID : Int) : Store × Nat :=
  let chId := s.nextCh
  let cur := (lookupA s.subs doctorID).getD []
  let cur' := if chId ∈ cur then cur else cur ++ [chId]
  ({ s with
      chans := insertA s.chans chId { pending := false, closed := false },
      subs := insertA s.subs doctorID cur',
      nextCh := chId + 1 }, chId)

/-- The cancel closure returned by `Subscribe` (src/main.go lines 225-230):
`delete(s.subs[doctorID], ch); close(ch)`.  Deleting from a nil or
entry-less map is a no-op; closing an already-closed channel panics
(`none`). -/
def Cancel (s : Store) (doctorID : Int) (chId : Nat) : Option Store :=
  let subs' :=
    match lookupA s.subs doctorID with
    | some l => insertA s.subs doctorID (l.filter fun x => x != chId)
    | none => s.subs
  match lookupA s.chans chId with
  | some c =>
      if c.closed then none
      else some { s with subs := subs',
                         chans := insertA s.chans chId { c with closed := true } }
  | none => none

/-- `Store.persistSelections` (src/main.go lines 128-137): the snapshot
written to disk, a sequence of (patientId, doctorId) pairs drawn from the
relation. -/
def persistSelections (s : Store) : List Selection :=
  s.selections.map fun pd => { patientID := pd.1, doctorID := pd.2 }

/-- The merge loop of `Store.loadSelections` (src/main.go lines 122-124):
each snapshot entry is written into the in-memory map by key. -/
def loadSelections (sel : AMap Int Int) (arr : List Selection) : AMap Int Int :=
  arr.foldl (fun m x => insertA m x.patientID x.doctorID) sel

/-- Startup load of a snapshot into a store (src/main.go lines 107 and
111-126): merges entries by key, clears nothing, performs no validation. -/
def loadStore (s : Store) (arr : List Selection) : Store :=
  { s with selections := loadSelections s.selections arr }

/-- A burst of `SelectDoctor` calls all targeting the same doctor; `none`
unless every call succeeds. -/
def selectBurst (s : Store) (doctorID : Int) : List Int → Option Store
  | [] => some s
  | p :: ps =>
      match SelectDoctor s p doctorID with
      | some (s', GoResult.ok) => selectBurst s' doctorID ps
      | _ => none

/-- A sequence of `SelectDoctor` calls; `none` unless every call succeeds. -/
def selectRun (s : Store) : List (Int × Int) → Option Store
  | [] => some s
  | c :: cs =>
      match SelectDoctor s c.1 c.2 with
      | some (s', GoResult.ok) => selectRun s' cs
      | _ => none

/-- Referential integrity of the relation: every entry references a patient
id and a doctor id present in the directory. -/
def relIntegrity (s : Store) : Prop :=
  ∀ pd ∈ s.selections, (lookupA s.patients pd.1).isSome ∧
    (lookupA s.doctors pd.2).isSome

instance (s : Store) : Decidable (relIntegrity s) := by
  unfold relIntegrity; infer_instance

/-- Directory well-formedness established by `NewStore` (src/main.go line
91, `st.patients[p.ID] = p`): the stored record's id field equals its key. -/
def patientsWF (s : Store) : Prop :=
  ∀ kp ∈ s.patients, kp.2.id = kp.1

instance (s : Store) : Decidable (patientsWF s) := by
  unfold patientsWF; infer_instance

/-- Concrete seed data used by witnesses: one patient (id 1) and one doctor
(id 10), as `NewStore` would build it (subscriber set pre-created per
doctor, selections loaded empty). -/
def pat1 : Patient :=
  { id := 1, login := "p1", password := "pw1", name := "Alice" }

def doc10 : Doctor :=
  { id := 10, login := "d1", password := "pw2", first := "A",
    last := "B", middle := "C", special := "gp" }

def demoStore : Store :=
  { patients := [(1, pat1)], doctors := [(10, doc10)], selections := [],
    subs := [(10, [])], chans := [], nextCh := 0 }

/-- The store after `SelectDoctor demoStore 1 10` succeeds. -/
def demoAfter : Store :=
  { demoStore with selections := [(1, 10)] }

/-- First-match lookup in a snapshot list, keyed by `patientID`. -/
def lookupSelList : List Selection → Int → Option Int
  | [], _ => none
  | x :: rest, p =>
      if x.patientID = p then some x.doctorID else lookupSelList rest p

/-- The demo store with one live subscriber (handle 0) for doctor 10. -/
def demoSub : Store := (Subscribe demoStore 10).1

/-- The demo store after that subscriber's cancel has run once. -/
def demoCanceled : Store :=
  { demoSub with subs := [(10, [])],
                 chans := [(0, { pending := false, closed := true })] }

/-- The demo store after a burst of two select(1, 10) calls against
`demoSub`: one coalesced signal is pending. -/
def demoBurst : Store :=
  { demoSub with selections := [(1, 10)],
                 chans := [(0, { pending := true, closed := false })] }

/-- A second doctor for the re-selection scenario. -/
def doc20 : Doctor :=
  { id := 20, login := "d2", password := "pw3", first := "D",
    last := "E", middle := "F", special := "derm" }

/-- A store where patient 1 already selected doctor 20, and doctor 20 has a
live subscriber (handle 0). -/
def demoTwo : Store :=
  { patients := [(1, pat1)], doctors := [(10, doc10), (20, doc20)],
    selections := [(1, 20)], subs := [(10, []), (20, [0])],
    chans := [(0, { pending := false, closed := false })], nextCh := 1 }

/-- `demoTwo` after patient 1 re-selects doctor 10. -/
def demoTwoAfter : Store :=
  { demoTwo with selections := [(1, 10)] }

/-- A store whose relation came from a stale persisted snapshot: the entry
maps patient id 999, absent from the directory, to doctor 10. -/
def demoStale : Store :=
  { demoStore with selections := [(999, 10)] }

/-- Events of one `SelectDoctor` call, in program order. -/
inductive Ev where
  | lockEx
  | unlockEx
  | mutateRelation
  | spawnPersist
  | send (chId : Nat)
deriving DecidableEq, Repr

/-- Event trace of `SelectDoctor` (src/main.go lines 183-201).  The
exclusive lock is taken on entry and — being released by a deferred call —
dropped only at return, so the mutation, the spawn of the persistence
goroutine, and the entire subscriber publish loop all happen between
`lockEx` and `unlockEx`.  The persistence write itself runs in the spawned
goroutine under its own read lock, not under this exclusive lock. -/
def selectDoctorEvents (s : Store) (patientID doctorID : Int) : List Ev :=
  if (lookupA s.patients patientID).isNone then [Ev.lockEx, Ev.unlockEx]
  else if (lookupA s.doctors doctorID).isNone then [Ev.lockEx, Ev.unlockEx]
  else
    [Ev.lockEx, Ev.mutateRelation, Ev.spawnPersist] ++
      (subsOf s doctorID).map Ev.send ++ [Ev.unlockEx]

/-- Whether some subscriber send occurs while the exclusive lock is held. -/
def sendWhileLocked (tr : List Ev) : Bool :=
  (tr.foldl
    (fun acc e =>
      match e with
      | Ev.lockEx => (true, acc.2)
      | Ev.unlockEx => (false, acc.2)
      | Ev.send _ => (acc.1, acc.2 || acc.1)
      | _ => acc)
    (false, false)).2

theorem lookupA_insertA_self {α β : Type} [DecidableEq α] (m : AMap α β)
    (k : α) (v : β) : lookupA (insertA m k v) k = some v := by
  induction m with
  | nil => simp [insertA, lookupA]
  | cons hd tl ih =>
      obtain ⟨a, b⟩ := hd
      by_cases h : a = k
      · simp [insertA, h, lookupA]
      · simp [insertA, h, lookupA, ih]

theorem lookupA_insertA_ne {α β : Type} [DecidableEq α] (m : AMap α β)
    (k k' : α) (v : β) (h : k' ≠ k) :
    lookupA (insertA m k v) k' = lookupA m k' := by
  induction m with
  | nil =>
      simp only [insertA, lookupA, if_neg (Ne.symm h)]
  | cons hd tl ih =>
      obtain ⟨a, b⟩ := hd
      by_cases ha : a = k
      · subst ha
        simp only [insertA, if_pos rfl, lookupA, if_neg (Ne.symm h)]
      · simp only [insertA, if_neg ha, lookupA, ih]

theorem mem_insertA_self {α β : Type} [DecidableEq α] (m : AMap α β)
    (k : α) (v : β) : (k, v) ∈ insertA m k v := by
  induction m with
  | nil => simp [insertA]
  | cons hd tl ih =>
      obtain ⟨a, b⟩ := hd
      by_cases h : a = k
      · simp [insertA, h]
      · simp [insertA, h, ih]

theorem mem_insertA_elim {α β : Type} [DecidableEq α] {m : AMap α β}
    {k : α} {v : β} {x : α × β} (hx : x ∈ insertA m k v) :
    x = (k, v) ∨ x ∈ m := by
  induction m with
  | nil => simpa [insertA] using hx
  | cons hd tl ih =>
      obtain ⟨a, b⟩ := hd
      by_cases h : a = k
      · rw [insertA, if_pos h] at hx
        rcases List.mem_cons.mp hx with h1 | h2
        · exact Or.inl h1
        · exact Or.inr (List.mem_cons_of_mem _ h2)
      · rw [insertA, if_neg h] at hx
        rcases List.mem_cons.mp hx with h1 | h2
        · exact Or.inr (h1 ▸ List.mem_cons_self _ _)
        · rcases ih h2 with h3 | h4
          · exact Or.inl h3
          · exact Or.inr (List.mem_cons_of_mem _ h4)

theorem mem_keys_insertA {α β : Type} [DecidableEq α] {m : AMap α β}
    {k x : α} {v : β} (hx : x ∈ (insertA m k v).map Prod.fst) :
    x = k ∨ x ∈ m.map Prod.fst := by
  rcases List.mem_map.mp hx with ⟨pr, hpr, hfst⟩
  rcases mem_insertA_elim hpr with h1 | h2
  · subst h1; exact Or.inl hfst.symm
  · exact Or.inr (hfst ▸ List.mem_map_of_mem Prod.fst h2)

theorem keys_nodup_insertA {α β : Type} [DecidableEq α] {m : AMap α β}
    (k : α) (v : β) (hm : (m.map Prod.fst).Nodup) :
    ((insertA m k v).map Prod.fst).Nodup := by
  induction m with
  | nil => simp [insertA]
  | cons hd tl ih =>
      obtain ⟨a, b⟩ := hd
      rw [List.map_cons, List.nodup_cons] at hm
      by_cases h : a = k
      · subst h
        rw [insertA, if_pos rfl]
        exact List.nodup_cons.mpr hm
      · rw [insertA, if_neg h, List.map_cons, List.nodup_cons]
        refine ⟨fun hmem => ?_, ih hm.2⟩
        rcases mem_keys_insertA hmem with h1 | h2
        · exact h h1
        · exact hm.1 h2

theorem mem_insertA_eq_of_nodup {α β : Type} [DecidableEq α] {m : AMap α β}
    {k : α} {v w : β} (hm : (m.map Prod.fst).Nodup)
    (hx : (k, w) ∈ insertA m k v) : w = v := by
  induction m with
  | nil =>
      rw [insertA] at hx
      simpa using hx
  | cons hd tl ih =>
      obtain ⟨a, b⟩ := hd
      rw [List.map_cons, List.nodup_cons] at hm
      by_cases h : a = k
      · subst h
        rw [insertA, if_pos rfl] at hx
        rcases List.mem_cons.mp hx with h1 | h2
        · exact congrArg Prod.snd h1
        · exact absurd (List.mem_map_of_mem Prod.fst h2) hm.1
      · rw [insertA, if_neg h] at hx
        rcases List.mem_cons.mp hx with h1 | h2
        · exact absurd (congrArg Prod.fst h1).symm h
        · exact ih hm.2 h2

theorem lookupA_mem {α β : Type} [DecidableEq α] {m : AMap α β} {k : α}
    {v : β} (h : lookupA m k = some v) : (k, v) ∈ m := by
  induction m with
  | nil => simp [lookupA] at h
  | cons hd tl ih =>
      obtain ⟨a, b⟩ := hd
      by_cases ha : a = k
      · subst ha
        rw [lookupA, if_pos rfl] at h
        injection h with hbv
        subst hbv
        exact List.mem_cons_self _ _
      · rw [lookupA, if_neg ha] at h
        exact List.mem_cons_of_mem _ (ih h)

theorem trySend_some {c c' : Chan} (h : trySend c = some c') :
    c' = { pending := true, closed := false } ∧ c.closed = false := by
  obtain ⟨p, cl⟩ := c
  cases cl
  · cases p
    · rw [show trySend ⟨false, false⟩ = some ⟨true, false⟩ from rfl] at h
      injection h with h
      exact ⟨h.symm, rfl⟩
    · rw [show trySend ⟨true, false⟩ = some ⟨true, false⟩ from rfl] at h
      injection h with h
      exact ⟨h.symm, rfl⟩
  · rw [show trySend ⟨p, true⟩ = none from rfl] at h
    exact Option.noConfusion h

theorem trySend_of_open {c : Chan} (hc : c.closed = false) :
    trySend c = some { pending := true, closed := false } := by
  obtain ⟨p, cl⟩ := c
  cases cl
  · cases p <;> rfl
  · exact absurd hc (by simp)

theorem publishAll_not_mem {chans chans' : AMap Nat Chan} {ids : List Nat}
    {x : Nat} (hx : x ∉ ids) (h : publishAll chans ids = some chans') :
    lookupA chans' x = lookupA chans x := by
  induction ids generalizing chans with
  | nil =>
      rw [publishAll] at h
      injection h with h
      subst h
      rfl
  | cons i rest ih =>
      rcases hl : lookupA chans i with _ | c
      · simp only [publishAll, hl] at h
        exact Option.noConfusion h
      · rcases hs : trySend c with _ | c'
        · simp only [publishAll, hl, hs] at h
          exact Option.noConfusion h
        · simp only [publishAll, hl, hs] at h
          have hx1 : x ≠ i := fun e => hx (e ▸ List.mem_cons_self i rest)
          have hx2 : x ∉ rest := fun e => hx (List.mem_cons_of_mem _ e)
          rw [ih hx2 h, lookupA_insertA_ne _ _ _ _ hx1]

theorem publishAll_pending {chans chans' : AMap Nat Chan} {ids : List Nat}
    {x : Nat}
    (hx : lookupA chans x = some { pending := true, closed := false })
    (h : publishAll chans ids = some chans') :
    lookupA chans' x = some { pending := true, closed := false } := by
  induction ids generalizing chans with
  | nil =>
      rw [publishAll] at h
      injection h with h
      subst h
      exact hx
  | cons i rest ih =>
      rcases hl : lookupA chans i with _ | c
      · simp only [publishAll, hl] at h
        exact Option.noConfusion h
      · rcases hs : trySend c with _ | c'
        · simp only [publishAll, hl, hs] at h
          exact Option.noConfusion h
        · simp only [publishAll, hl, hs] at h
          apply ih _ h
          by_cases hxi : x = i
          · subst hxi
            rw [lookupA_insertA_self]
            rcases trySend_some hs with ⟨hc', _⟩
            rw [hc']
          · rw [lookupA_insertA_ne _ _ _ _ hxi]
            exact hx

theorem publishAll_mem {chans chans' : AMap Nat Chan} {ids : List Nat}
    {x : Nat} (hx : x ∈ ids) (h : publishAll chans ids = some chans') :
    lookupA chans' x = some { pending := true, closed := false } := by
  induction ids generalizing chans with
  | nil => simp at hx
  | cons i rest ih =>
      rcases hl : lookupA chans i with _ | c
      · simp only [publishAll, hl] at h
        exact Option.noConfusion h
      · rcases hs : trySend c with _ | c'
        · simp only [publishAll, hl, hs] at h
          exact Option.noConfusion h
        · simp only [publishAll, hl, hs] at h
          rcases List.mem_cons.mp hx with h1 | h2
          · subst h1
            apply publishAll_pending _ h
            rw [lookupA_insertA_self]
            rcases trySend_some hs with ⟨hc', _⟩
            rw [hc']
          · exact ih h2 h

theorem publishAll_total {chans : AMap Nat Chan} {ids : List Nat}
    (hall : ∀ x ∈ ids, ∃ c, lookupA chans x = some c ∧ c.closed = false) :
    ∃ chans', publishAll chans ids = some chans' := by
  induction ids generalizing chans with
  | nil => exact ⟨chans, rfl⟩
  | cons i rest ih =>
      rcases hall i (List.mem_cons_self i rest) with ⟨c, hl, hc⟩
      have hts := trySend_of_open hc
      have hall' : ∀ x ∈ rest,
          ∃ d, lookupA (insertA chans i { pending := true, closed := false })
            x = some d ∧ d.closed = false := by
        intro x hxr
        by_cases hxi : x = i
        · subst hxi
          exact ⟨_, lookupA_insertA_self _ _ _, rfl⟩
        · rcases hall x (List.mem_cons_of_mem _ hxr) with ⟨e, he, hec⟩
          refine ⟨e, ?_, hec⟩
          rw [lookupA_insertA_ne _ _ _ _ hxi]
          exact he
      rcases ih hall' with ⟨chans', hch⟩
      refine ⟨chans', ?_⟩
      simp only [publishAll, hl, hts]
      exact hch

theorem select_ok_spec {s s' : Store} {p d : Int}
    (h : SelectDoctor s p d = some (s', GoResult.ok)) :
    (lookupA s.patients p).isSome ∧ (lookupA s.doctors d).isSome ∧
    ∃ cs, publishAll s.chans (subsOf s d) = some cs ∧
      s' = { s with selections := insertA s.selections p d, chans := cs } := by
  rcases hlp : lookupA s.patients p with _ | pv
  · simp [SelectDoctor, hlp] at h
  · rcases hld : lookupA s.doctors d with _ | dv
    · simp [SelectDoctor, hlp, hld] at h
    · rcases hpub : publishAll s.chans (subsOf s d) with _ | cs
      · simp [SelectDoctor, hlp, hld, hpub] at h
      · simp only [SelectDoctor, hlp, hld, hpub, Option.isNone_some,
          Bool.false_eq_true, if_false] at h
        injection h with h2
        exact ⟨rfl, rfl, cs, rfl, (congrArg Prod.fst h2).symm⟩

theorem select_ok_intro {s : Store} {p d : Int} {cs : AMap Nat Chan}
    (hp : (lookupA s.patients p).isSome)
    (hd : (lookupA s.doctors d).isSome)
    (hpub : publishAll s.chans (subsOf s d) = some cs) :
    SelectDoctor s p d =
      some ({ s with selections := insertA s.selections p d, chans := cs },
        GoResult.ok) := by
  rcases hlp : lookupA s.patients p with _ | pv
  · rw [hlp] at hp
    simp at hp
  · rcases hld : lookupA s.doctors d with _ | dv
    · rw [hld] at hd
      simp at hd
    · simp only [SelectDoctor, hlp, hld, hpub, Option.isNone_some,
        Bool.false_eq_true, if_false]

/-- Claim C1: for a patient and doctor present in the directory, after
`SelectDoctor` returns success the relation maps the patient to that doctor
(`doctorFor` agrees), `PatientsOfDoctor` of the chosen doctor contains the
patient, and for every other doctor the patient is absent from
`PatientsOfDoctor` — a prior mapping is overwritten, not duplicated. -/
theorem select_success_updates_relation {s s' : Store} {pid did : Int}
    {p : Patient}
    (hp : lookupA s.patients pid = some p)
    (hwf : patientsWF s)
    (hnd : (s.selections.map Prod.fst).Nodup)
    (hsel : SelectDoctor s pid did = some (s', GoResult.ok)) :
    doctorFor s' pid = some did ∧ p ∈ PatientsOfDoctor s' did ∧
      ∀ d', d' ≠ did → p ∉ PatientsOfDoctor s' d' := by
  rcases select_ok_spec hsel with ⟨_, _, cs, hpub, hs'⟩
  subst hs'
  refine ⟨lookupA_insertA_self _ _ _, ?_, ?_⟩
  · apply List.mem_filterMap.mpr
    refine ⟨(pid, did), mem_insertA_self _ _ _, ?_⟩
    simpa using hp
  · intro d' hd' hmem
    rcases List.mem_filterMap.mp hmem with ⟨⟨q, e⟩, hqe, hf⟩
    by_cases he : e = d'
    · subst he
      rw [if_pos rfl] at hf
      have hq : p.id = q := hwf (q, p) (lookupA_mem hf)
      have hpidp : p.id = pid := hwf (pid, p) (lookupA_mem hp)
      have hqpid : q = pid := by rw [← hq, hpidp]
      subst hqpid
      exact hd' (mem_insertA_eq_of_nodup hnd hqe)
    · rw [if_neg he] at hf
      exact Option.noConfusion hf

/-- Witness for C1: select(1, 10) on the demo seed. -/
theorem select_success_updates_relation_witness :
    lookupA demoStore.patients 1 = some pat1 ∧ patientsWF demoStore ∧
    (demoStore.selections.map Prod.fst).Nodup ∧
    SelectDoctor demoStore 1 10 = some (demoAfter, GoResult.ok) ∧
    (doctorFor demoAfter 1 = some 10 ∧ pat1 ∈ PatientsOfDoctor demoAfter 10 ∧
      ∀ d', d' ≠ 10 → pat1 ∉ PatientsOfDoctor demoAfter d') :=
  ⟨by rfl, by decide, by decide, by rfl,
    @select_success_updates_relation demoStore demoAfter 1 10 pat1
      (by rfl) (by decide) (by decide) (by rfl)⟩

/-- Claim C2: `SelectDoctor` with an unknown patient id returns the
"patient not found" error, and with a known patient id but unknown doctor id
returns the "doctor not found" error; in both cases the returned store is
the input store itself, so the relation and every subscriber channel are
exactly as before and no signal is delivered to anyone. -/
theorem select_unknown_id_rejected (s : Store) (pid did : Int) :
    (lookupA s.patients pid = none →
      SelectDoctor s pid did = some (s, GoResult.err "patient not found")) ∧
    ((lookupA s.patients pid).isSome → lookupA s.doctors did = none →
      SelectDoctor s pid did = some (s, GoResult.err "doctor not found")) := by
  constructor
  · intro h
    simp [SelectDoctor, h]
  · intro hp hd
    rcases hlp : lookupA s.patients pid with _ | pv
    · rw [hlp] at hp
      simp at hp
    · simp [SelectDoctor, hlp, hd]

/-- Witness for C2: select(999, 10) and select(1, 999) on the demo seed. -/
theorem select_unknown_id_rejected_witness :
    (lookupA demoStore.patients 999 = none ∧
      SelectDoctor demoStore 999 10 =
        some (demoStore, GoResult.err "patient not found")) ∧
    ((lookupA demoStore.patients 1).isSome ∧
      lookupA demoStore.doctors 999 = none ∧
      SelectDoctor demoStore 1 999 =
        some (demoStore, GoResult.err "doctor not found")) :=
  ⟨⟨by rfl, (select_unknown_id_rejected demoStore 999 10).1 (by rfl)⟩,
   ⟨by rfl, by rfl,
     (select_unknown_id_rejected demoStore 1 999).2 (by rfl) (by rfl)⟩⟩

theorem selectBurst_cons {s s' : Store} {d p : Int} {ps : List Int}
    (h : selectBurst s d (p :: ps) = some s') :
    ∃ s₁, SelectDoctor s p d = some (s₁, GoResult.ok) ∧
      selectBurst s₁ d ps = some s' := by
  rcases hsel : SelectDoctor s p d with _ | pr
  · simp only [selectBurst, hsel] at h
    exact Option.noConfusion h
  · obtain ⟨s₁, r⟩ := pr
    cases r with
    | ok =>
        refine ⟨s₁, rfl, ?_⟩
        simpa only [selectBurst, hsel] using h
    | err m =>
        simp only [selectBurst, hsel] at h
        exact Option.noConfusion h

theorem selectBurst_pending {s s' : Store} {d : Int} {ps : List Int} {x : Nat}
    (h : selectBurst s d ps = some s')
    (hx : lookupA s.chans x = some { pending := true, closed := false }) :
    lookupA s'.chans x = some { pending := true, closed := false } := by
  induction ps generalizing s with
  | nil =>
      rw [selectBurst] at h
      injection h with h
      subst h
      exact hx
  | cons p ps ih =>
      rcases selectBurst_cons h with ⟨s₁, hsel, hrest⟩
      rcases select_ok_spec hsel with ⟨_, _, cs, hpub, hs₁⟩
      subst hs₁
      exact ih hrest (publishAll_pending hx hpub)

theorem cancel_spec {s s₁ : Store} {d : Int} {chId : Nat}
    (h : Cancel s d chId = some s₁) :
    ∃ c, lookupA s.chans chId = some c ∧ c.closed = false ∧
      s₁.chans = insertA s.chans chId { c with closed := true } ∧
      s₁.patients = s.patients ∧ s₁.doctors = s.doctors ∧
      s₁.selections = s.selections ∧
      subsOf s₁ d = (subsOf s d).filter (fun x => x != chId) := by
  rcases hl : lookupA s.chans chId with _ | c
  · simp only [Cancel, hl] at h
    exact Option.noConfusion h
  · by_cases hc : c.closed
    · simp only [Cancel, hl, if_pos hc] at h
      exact Option.noConfusion h
    · rcases hsub : lookupA s.subs d with _ | l
      · simp only [Cancel, hsub, hl, if_neg hc] at h
        injection h with h
        subst h
        refine ⟨c, rfl, by simpa using hc, rfl, rfl, rfl, rfl, ?_⟩
        simp [subsOf, hsub]
      · simp only [Cancel, hsub, hl, if_neg hc] at h
        injection h with h
        subst h
        refine ⟨c, rfl, by simpa using hc, rfl, rfl, rfl, rfl, ?_⟩
        simp only [subsOf, hsub, Option.getD_some]
        rw [lookupA_insertA_self]
        rfl

theorem cancel_not_in_subs {s s₁ : Store} {d : Int} {chId : Nat}
    (h : Cancel s d chId = some s₁) : chId ∉ subsOf s₁ d := by
  rcases cancel_spec h with ⟨c, _, _, _, _, _, _, hsub⟩
  rw [hsub]
  intro hmem
  have hb := (List.mem_filter.mp hmem).2
  simp at hb

theorem lookupSelList_eq_none {arr : List Selection} {p : Int}
    (h : p ∉ arr.map Selection.patientID) : lookupSelList arr p = none := by
  induction arr with
  | nil => rfl
  | cons x rest ih =>
      rw [List.map_cons] at h
      have h1 : ¬ x.patientID = p := by
        intro e
        apply h
        rw [← e]
        exact List.mem_cons_self _ _
      rw [lookupSelList, if_neg h1,
        ih (fun e => h (List.mem_cons_of_mem _ e))]

theorem lookupSelList_mem {arr : List Selection} {p dd : Int}
    (h : lookupSelList arr p = some dd) :
    p ∈ arr.map Selection.patientID := by
  by_contra hcon
  rw [lookupSelList_eq_none hcon] at h
  exact Option.noConfusion h

theorem loadSelections_lookup {arr : List Selection}
    (hnd : (arr.map Selection.patientID).Nodup) (init : AMap Int Int)
    (p : Int) :
    lookupA (loadSelections init arr) p =
      match lookupSelList arr p with
      | some dd => some dd
      | none => lookupA init p := by
  induction arr generalizing init with
  | nil => rfl
  | cons x rest ih =>
      rw [List.map_cons, List.nodup_cons] at hnd
      have hstep : loadSelections init (x :: rest) =
          loadSelections (insertA init x.patientID x.doctorID) rest := rfl
      rw [hstep, ih hnd.2]
      rcases hres : lookupSelList rest p with _ | dd
      · simp only [hres]
        by_cases hx : x.patientID = p
        · subst hx
          simp only [lookupSelList, if_pos rfl]
          exact lookupA_insertA_self _ _ _
        · simp only [lookupSelList, if_neg hx, hres]
          exact lookupA_insertA_ne _ _ _ _ (fun e => hx e.symm)
      · simp only [hres]
        by_cases hx : x.patientID = p
        · subst hx
          exact absurd (lookupSelList_mem hres) hnd.1
        · simp only [lookupSelList, if_neg hx, hres]

theorem lookupSelList_map (sel : AMap Int Int) (p : Int) :
    lookupSelList
      (sel.map fun pd => { patientID := pd.1, doctorID := pd.2 }) p =
      lookupA sel p := by
  induction sel with
  | nil => rfl
  | cons hd tl ih =>
      obtain ⟨a, b⟩ := hd
      by_cases h : a = p
      · simp only [List.map_cons, lookupSelList, lookupA, if_pos h]
      · simp only [List.map_cons, lookupSelList, lookupA, if_neg h, ih]

theorem select_preserves_integrity {s s' : Store} {p d : Int}
    (hs : relIntegrity s)
    (h : SelectDoctor s p d = some (s', GoResult.ok)) : relIntegrity s' := by
  rcases select_ok_spec h with ⟨hp, hd, cs, hpub, hs'⟩
  subst hs'
  intro pd hpd
  rcases mem_insertA_elim hpd with h1 | h2
  · subst h1
    exact ⟨hp, hd⟩
  · exact hs pd h2

theorem selectRun_preserves_integrity {s s' : Store}
    {calls : List (Int × Int)} (h : selectRun s calls = some s')
    (hs : relIntegrity s) : relIntegrity s' := by
  induction calls generalizing s with
  | nil =>
      rw [selectRun] at h
      injection h with h
      subst h
      exact hs
  | cons c rest ih =>
      rcases hsel : SelectDoctor s c.1 c.2 with _ | pr
      · simp only [selectRun, hsel] at h
        exact Option.noConfusion h
      · obtain ⟨s₁, r⟩ := pr
        cases r with
        | ok =>
            simp only [selectRun, hsel] at h
            exact ih h (select_preserves_integrity hs hsel)
        | err m =>
            simp only [selectRun, hsel] at h
            exact Option.noConfusion h

theorem loadSelections_mem {sel : AMap Int Int} {arr : List Selection}
    {pd : Int × Int} (h : pd ∈ loadSelections sel arr) :
    pd ∈ sel ∨ ∃ x ∈ arr, pd = (x.patientID, x.doctorID) := by
  induction arr generalizing sel with
  | nil => exact Or.inl h
  | cons y rest ih =>
      rcases ih h with h1 | ⟨x, hx, he⟩
      · rcases mem_insertA_elim h1 with h2 | h3
        · exact Or.inr ⟨y, List.mem_cons_self _ _, h2⟩
        · exact Or.inl h3
      · exact Or.inr ⟨x, List.mem_cons_of_mem _ hx, he⟩

theorem load_preserves_integrity {s : Store} {arr : List Selection}
    (hall : ∀ x ∈ arr, (lookupA s.patients x.patientID).isSome ∧
      (lookupA s.doctors x.doctorID).isSome)
    (hs : relIntegrity s) : relIntegrity (loadStore s arr) := by
  intro pd hpd
  rcases loadSelections_mem hpd with h1 | ⟨x, hx, he⟩
  · exact hs pd h1
  · subst he
    exact hall x hx

/-- Claim C3: a subscriber registered for doctor `d` ends a burst of one or
more successful `SelectDoctor` calls targeting `d` with exactly one
coalesced signal pending: its one-slot buffer is full (`pending = true`,
never zero signals), and the extra sends of the burst were dropped, not
queued — the buffer cannot hold more than one. -/
theorem burst_coalesces_to_one_signal {s s' : Store} {d : Int}
    {ps : List Int} {x : Nat}
    (hmem : x ∈ subsOf s d)
    (hne : ps ≠ [])
    (hburst : selectBurst s d ps = some s') :
    lookupA s'.chans x = some { pending := true, closed := false } := by
  cases ps with
  | nil => exact absurd rfl hne
  | cons p ps =>
      rcases selectBurst_cons hburst with ⟨s₁, hsel, hrest⟩
      rcases select_ok_spec hsel with ⟨_, _, cs, hpub, hs₁⟩
      subst hs₁
      exact selectBurst_pending hrest (publishAll_mem hmem hpub)

/-- Witness for C3: a burst of two select(1, 10) calls against the store
with subscriber 0 registered for doctor 10. -/
theorem burst_coalesces_to_one_signal_witness :
    0 ∈ subsOf demoSub 10 ∧ ([1, 1] : List Int) ≠ [] ∧
    selectBurst demoSub 10 [1, 1] = some demoBurst ∧
    lookupA demoBurst.chans 0 = some { pending := true, closed := false } :=
  ⟨by decide, by decide, by rfl,
    @burst_coalesces_to_one_signal demoSub demoBurst 10 [1, 1] 0
      (by decide) (by decide) (by rfl)⟩

/-- Claim C4, counterexample: cancel is not idempotent.  On the demo seed,
subscribe to doctor 10 and call the cancel function twice: the first call
succeeds, the second reaches `close(ch)` on an already-closed channel and
panics (modelled as `none`). -/
theorem cancel_second_call_panics :
    (Cancel (Subscribe demoStore 10).1 10 (Subscribe demoStore 10).2).isSome
      = true ∧
    (Cancel (Subscribe demoStore 10).1 10 (Subscribe demoStore 10).2).bind
      (fun s₁ => Cancel s₁ 10 (Subscribe demoStore 10).2) = none :=
  ⟨rfl, rfl⟩

/-- Claim C4, amended: after a cancel has run once, the subscriber-registry
removal is idempotent — the handle is gone and deleting it again would
change nothing — but the cancel function itself is safe to call exactly
once: a second invocation panics on `close` of the closed channel. -/
theorem cancel_removal_idempotent_but_close_panics {s s₁ : Store} {d : Int}
    {chId : Nat} (h : Cancel s d chId = some s₁) :
    chId ∉ subsOf s₁ d ∧
    (subsOf s₁ d).filter (fun x => x != chId) = subsOf s₁ d ∧
    Cancel s₁ d chId = none := by
  have hnotin := cancel_not_in_subs h
  rcases cancel_spec h with ⟨c, hl, hcl, hch, _, _, _, hsub⟩
  refine ⟨hnotin, List.filter_eq_self.mpr ?_, ?_⟩
  · intro a ha
    simp only [bne_iff_ne, ne_eq, decide_eq_true_eq]
    intro e
    exact hnotin (e ▸ ha)
  · have hlook : lookupA s₁.chans chId = some { c with closed := true } := by
      rw [hch]
      exact lookupA_insertA_self _ _ _
    rcases h₂ : Cancel s₁ d chId with _ | s₂
    · rfl
    · exfalso
      rcases cancel_spec h₂ with ⟨c₂, hl₂, hc₂, _⟩
      rw [hlook] at hl₂
      injection hl₂ with e
      rw [← e] at hc₂
      simp at hc₂

/-- Witness for C4 amended: the single cancel of subscriber 0. -/
theorem cancel_removal_idempotent_but_close_panics_witness :
    Cancel demoSub 10 0 = some demoCanceled ∧
    (0 ∉ subsOf demoCanceled 10 ∧
      (subsOf demoCanceled 10).filter (fun x => x != 0) =
        subsOf demoCanceled 10 ∧
      Cancel demoCanceled 10 0 = none) :=
  ⟨by rfl,
    @cancel_removal_idempotent_but_close_panics demoSub demoCanceled 10 0
      (by rfl)⟩

/-- Claim C5: once a subscriber's cancel has run, the removed channel is no
longer in the set iterated by publish; a subsequent successful
`SelectDoctor` targeting the same doctor does not panic (provided the
remaining subscribers are live) and leaves the cancelled channel's state
untouched — no signal is sent to it. -/
theorem publish_after_cancel_skips_removed {s s₁ : Store} {d pid : Int}
    {chId : Nat}
    (hc : Cancel s d chId = some s₁)
    (hp : (lookupA s₁.patients pid).isSome)
    (hd : (lookupA s₁.doctors d).isSome)
    (hopen : ∀ x ∈ subsOf s₁ d, ∃ c, lookupA s₁.chans x = some c ∧
      c.closed = false) :
    chId ∉ subsOf s₁ d ∧
    ∃ cs, SelectDoctor s₁ pid d =
        some ({ s₁ with selections := insertA s₁.selections pid d,
                        chans := cs }, GoResult.ok) ∧
      lookupA cs chId = lookupA s₁.chans chId := by
  have hnotin := cancel_not_in_subs hc
  rcases publishAll_total hopen with ⟨cs, hpub⟩
  exact ⟨hnotin, cs, select_ok_intro hp hd hpub,
    publishAll_not_mem hnotin hpub⟩

/-- Witness for C5: select(1, 10) right after cancelling subscriber 0. -/
theorem publish_after_cancel_skips_removed_witness :
    Cancel demoSub 10 0 = some demoCanceled ∧
    (lookupA demoCanceled.patients 1).isSome ∧
    (lookupA demoCanceled.doctors 10).isSome ∧
    (∀ x ∈ subsOf demoCanceled 10, ∃ c,
      lookupA demoCanceled.chans x = some c ∧ c.closed = false) ∧
    (0 ∉ subsOf demoCanceled 10 ∧
      ∃ cs, SelectDoctor demoCanceled 1 10 =
          some ({ demoCanceled with
                    selections := insertA demoCanceled.selections 1 10,
                    chans := cs }, GoResult.ok) ∧
        lookupA cs 0 = lookupA demoCanceled.chans 0) :=
  ⟨by rfl, by rfl, by rfl, by decide,
    @publish_after_cancel_skips_removed demoSub demoCanceled 10 1 0
      (by rfl) (by rfl) (by rfl) (by decide)⟩

/-- Claim C6: round-trip — serializing the relation with the persistence
flush and loading that snapshot at a fresh startup into an initially empty
map reproduces exactly the same patient→doctor mapping. -/
theorem persist_load_roundtrip {s : Store}
    (hnd : (s.selections.map Prod.fst).Nodup) :
    ∀ pid, lookupA (loadSelections [] (persistSelections s)) pid =
      lookupA s.selections pid := by
  intro pid
  have hkeys : ((persistSelections s).map Selection.patientID).Nodup := by
    unfold persistSelections
    rw [List.map_map]
    exact hnd
  rw [loadSelections_lookup hkeys]
  rw [show lookupSelList (persistSelections s) pid =
    lookupA s.selections pid from lookupSelList_map _ _]
  cases lookupA s.selections pid <;> rfl

/-- Witness for C6: round-trip of the one-entry relation. -/
theorem persist_load_roundtrip_witness :
    (demoAfter.selections.map Prod.fst).Nodup ∧
    ∀ pid, lookupA (loadSelections [] (persistSelections demoAfter)) pid =
      lookupA demoAfter.selections pid :=
  ⟨by decide, @persist_load_roundtrip demoAfter (by decide)⟩

/-- Claim C7: when a patient with a prior mapping to a different doctor
re-selects, only the new doctor's subscribers are signalled: any channel
subscribed to a different doctor (and not to the new one) has exactly the
same state after the call as before it — the old doctor is not told. -/
theorem reselect_notifies_only_new_doctor {s s' : Store}
    {pid did dOld d' : Int} {x : Nat}
    (hprior : doctorFor s pid = some dOld)
    (hOldNe : dOld ≠ did)
    (hsel : SelectDoctor s pid did = some (s', GoResult.ok))
    (hne : d' ≠ did)
    (hx : x ∈ subsOf s d')
    (hnotin : x ∉ subsOf s did) :
    lookupA s'.chans x = lookupA s.chans x := by
  rcases select_ok_spec hsel with ⟨_, _, cs, hpub, hs'⟩
  subst hs'
  exact publishAll_not_mem hnotin hpub

/-- Witness for C7: patient 1 moves from doctor 20 to doctor 10; the
subscriber of doctor 20 is untouched. -/
theorem reselect_notifies_only_new_doctor_witness :
    doctorFor demoTwo 1 = some 20 ∧ (20 : Int) ≠ 10 ∧
    SelectDoctor demoTwo 1 10 = some (demoTwoAfter, GoResult.ok) ∧
    0 ∈ subsOf demoTwo 20 ∧ 0 ∉ subsOf demoTwo 10 ∧
    lookupA demoTwoAfter.chans 0 = lookupA demoTwo.chans 0 :=
  ⟨by rfl, by decide, by rfl, by decide, by decide,
    @reselect_notifies_only_new_doctor demoTwo demoTwoAfter 1 10 20 20 0
      (by rfl) (by decide) (by rfl) (by decide) (by decide) (by decide)⟩

/-- Claim C8, counterexample: a state reached by the program's own startup
load violates referential integrity — `loadSelections` merges the snapshot
entry (999, 10) although patient 999 is absent from the directory, because
the load path performs no referential check. -/
theorem load_skips_referential_check :
    ¬ relIntegrity
      (loadStore demoStore [{ patientID := 999, doctorID := 10 }]) := by
  decide

/-- Claim C8, amended: referential integrity holds in every state reachable
by a startup load whose snapshot entries all reference directory ids (for
example one persisted under the same directory), followed by any sequence
of successful `SelectDoctor` calls — the write path checks integrity at
mutation time, but the load itself checks nothing. -/
theorem integrity_of_valid_load_then_selects {s s' : Store}
    {arr : List Selection} {calls : List (Int × Int)}
    (hall : ∀ x ∈ arr, (lookupA s.patients x.patientID).isSome ∧
      (lookupA s.doctors x.doctorID).isSome)
    (hs : relIntegrity s)
    (hrun : selectRun (loadStore s arr) calls = some s') :
    relIntegrity s' :=
  selectRun_preserves_integrity hrun (load_preserves_integrity hall hs)

/-- Witness for C8 amended: load the valid snapshot entry (1, 10), then
select(1, 10). -/
theorem integrity_of_valid_load_then_selects_witness :
    (∀ x ∈ [({ patientID := 1, doctorID := 10 } : Selection)],
      (lookupA demoStore.patients x.patientID).isSome ∧
      (lookupA demoStore.doctors x.doctorID).isSome) ∧
    relIntegrity demoStore ∧
    selectRun (loadStore demoStore [{ patientID := 1, doctorID := 10 }])
      [(1, 10)] = some demoAfter ∧
    relIntegrity demoAfter :=
  ⟨by decide, by decide, by rfl,
    @integrity_of_valid_load_then_selects demoStore demoAfter
      [{ patientID := 1, doctorID := 10 }] [(1, 10)]
      (by decide) (by decide) (by rfl)⟩

/-- Claim C9 (code bug): the exclusive lock is NOT released before the
notification publish.  With subscriber 0 registered for doctor 10, the
trace of the successful select(1, 10) performs its subscriber send between
`lockEx` and the deferred `unlockEx` — the publish loop runs while the
exclusive lock is held, contradicting the spec's requirement that the lock
cover only the map mutation. -/
theorem publish_runs_under_exclusive_lock :
    sendWhileLocked (selectDoctorEvents demoSub 1 10) = true ∧
    selectDoctorEvents demoSub 1 10 =
      [Ev.lockEx, Ev.mutateRelation, Ev.spawnPersist, Ev.send 0,
        Ev.unlockEx] :=
  ⟨rfl, rfl⟩

/-- Claim C10: `PatientsOfDoctor` returns only patients present in the
directory, and a relation entry mapping an unknown patient id to the doctor
(possible only via a stale loaded snapshot) is silently omitted from the
result rather than causing an error. -/
theorem patientsOfDoctor_only_known (s : Store) (d pid : Int) :
    (∀ p ∈ PatientsOfDoctor s d, ∃ k, lookupA s.patients k = some p) ∧
    (lookupA s.patients pid = none →
      PatientsOfDoctor { s with selections := (pid, d) :: s.selections } d =
        PatientsOfDoctor s d) := by
  constructor
  · intro p hp
    rcases List.mem_filterMap.mp hp with ⟨⟨q, e⟩, hqe, hf⟩
    by_cases he : e = d
    · rw [if_pos he] at hf
      exact ⟨q, hf⟩
    · rw [if_neg he] at hf
      exact Option.noConfusion hf
  · intro h
    simp [PatientsOfDoctor, h]

/-- Witness for C10: the stale store whose only relation entry points at the
unknown patient 999. -/
theorem patientsOfDoctor_only_known_witness :
    (∀ p ∈ PatientsOfDoctor demoStale 10, ∃ k,
      lookupA demoStale.patients k = some p) ∧
    (lookupA demoStale.patients 999 = none ∧
      PatientsOfDoctor
        { demoStale with selections := (999, 10) :: demoStale.selections }
        10 = PatientsOfDoctor demoStale 10) :=
  ⟨(patientsOfDoctor_only_known demoStale 10 999).1,
   ⟨by rfl, (patientsOfDoctor_only_known demoStale 10 999).2 (by rfl)⟩⟩

end PatientDoctor
